import Mathlib

/-!
Shallow embedding of the RubyNavigate extension's core (src/rubyParser.ts and
src/symbolCache.ts).  Strings are modelled as `List Char`; JavaScript numbers
used for offsets are modelled as `Int` (they are produced by integer
arithmetic in the source); `undefined` fields are modelled as `Option`.
The anchored JavaScript regexes of the parser are deterministic (no
backtracking can change their result), so each is translated into a direct
scanner over the character list.
-/

namespace RubyNav

abbrev Str := List Char

/-- JS `\s` (the whitespace class used by `trim` as well), restricted to the
characters that can actually occur here: ASCII whitespace plus NBSP. -/
def isSpaceCh (c : Char) : Bool :=
  c == ' ' || c == '\t' || c == '\n' || c == '\r' || c == '\x0b' || c == '\x0c' || c == ' '

def isUpperAsc (c : Char) : Bool := decide ('A' ≤ c ∧ c ≤ 'Z')

def isLowerAsc (c : Char) : Bool := decide ('a' ≤ c ∧ c ≤ 'z')

def isDigitAsc (c : Char) : Bool := decide ('0' ≤ c ∧ c ≤ '9')

def isAlphaAsc (c : Char) : Bool := isUpperAsc c || isLowerAsc c

def isAlnumAsc (c : Char) : Bool := isAlphaAsc c || isDigitAsc c

/-- JS `\w`. -/
def isWordCh (c : Char) : Bool := isAlnumAsc c || c == '_'

/-- Character class `[A-Z0-9_]` of the constant regex. -/
def isConstCh (c : Char) : Bool := isUpperAsc c || isDigitAsc c || c == '_'

/-- Character class `[A-Za-z0-9_:]` of the receiver regex. -/
def isRecvCh (c : Char) : Bool := isAlnumAsc c || c == '_' || c == ':'

/-- JS `String.prototype.toLowerCase` (ASCII case mapping suffices here). -/
def toLowerL (s : Str) : Str := s.map Char.toLower

/-- JS `String.prototype.trim`. -/
def jsTrim (s : Str) : Str :=
  ((s.dropWhile isSpaceCh).reverse.dropWhile isSpaceCh).reverse

/-- JS `Array.prototype.join` with a separator. -/
def joinSep (sep : Str) : List Str → Str
  | [] => []
  | [x] => x
  | x :: xs => x ++ sep ++ joinSep sep xs

/-- Comma-join used when serializing a JSON object's entries. -/
def joinComma : List Str → Str
  | [] => []
  | [x] => x
  | x :: xs => x ++ ',' :: joinComma xs

/-- JS `String.prototype.indexOf`, position of the first occurrence. -/
def jsIndexOfNat (s sub : Str) : Option Nat :=
  match s with
  | [] => if sub.isPrefixOf [] then some 0 else none
  | c :: t =>
    if sub.isPrefixOf (c :: t) then some 0
    else (jsIndexOfNat t sub).map (· + 1)

def jsIndexOf (s sub : Str) : Int :=
  match jsIndexOfNat s sub with
  | some i => (i : Int)
  | none => -1

/-- JS `String.prototype.lastIndexOf`, position of the last occurrence. -/
def jsLastIndexOfNat (s sub : Str) : Option Nat :=
  match s with
  | [] => if sub.isPrefixOf [] then some 0 else none
  | c :: t =>
    match jsLastIndexOfNat t sub with
    | some j => some (j + 1)
    | none => if sub.isPrefixOf (c :: t) then some 0 else none

def jsLastIndexOf (s sub : Str) : Int :=
  match jsLastIndexOfNat s sub with
  | some i => (i : Int)
  | none => -1

/-- JS `String.prototype.includes`. -/
def listIncludes (s sub : Str) : Bool := (jsIndexOfNat s sub).isSome

/-- JS `text.split(/\r?\n/)`: split on `\n` or `\r\n` (a lone `\r` stays). -/
def splitLinesJS : Str → List Str
  | [] => [[]]
  | '\r' :: '\n' :: rest => [] :: splitLinesJS rest
  | '\n' :: rest => [] :: splitLinesJS rest
  | c :: rest =>
    match splitLinesJS rest with
    | [] => [[c]]
    | l :: ls => (c :: l) :: ls

/-- JS `text.includes('\r\n')`. -/
def containsCRLF : Str → Bool
  | '\r' :: '\n' :: _ => true
  | _ :: t => containsCRLF t
  | [] => false

def boundaryL : Option Char → Bool
  | none => true
  | some c => !(isWordCh c)

def boundaryR : Str → Bool
  | [] => true
  | c :: _ => !(isWordCh c)

/-- Search for `\b tok \b` anywhere in the string (`tok` is all word chars). -/
def hasWordTokAux (tok : Str) : Option Char → Str → Bool
  | prev, [] => boundaryL prev && tok.isPrefixOf ([] : Str) && true
  | prev, c :: t =>
    (boundaryL prev && tok.isPrefixOf (c :: t) && boundaryR ((c :: t).drop tok.length))
      || hasWordTokAux tok (some c) t

/-- JS `/\b tok \b/.test(s)` for a word-character token. -/
def hasWordTok (tok s : Str) : Bool := hasWordTokAux tok none s

/-- Match a literal string at the start, returning the rest. -/
def stripPrefixCh (pat s : Str) : Option Str :=
  if pat.isPrefixOf s then some (s.drop pat.length) else none

/-- Case-insensitive literal (pattern given lowercase); returns the matched
original text and the rest. -/
def stripPrefixCI (pat s : Str) : Option (Str × Str) :=
  if toLowerL (s.take pat.length) = pat ∧ pat.length ≤ s.length then
    some (s.take pat.length, s.drop pat.length)
  else none

/-- Regex piece `[A-Z][A-Za-z0-9]*`: one segment of a constant path. -/
def upperName : Str → Option (Str × Str)
  | [] => none
  | c :: rest =>
    if isUpperAsc c then
      some (c :: rest.takeWhile isAlnumAsc, rest.dropWhile isAlnumAsc)
    else none

theorem upperName_sound {s nm r : Str} (h : upperName s = some (nm, r)) :
    nm ++ r = s ∧ nm ≠ [] := by
  match s with
  | [] => simp [upperName] at h
  | c :: rest =>
    simp only [upperName] at h
    split at h
    · obtain ⟨h1, h2⟩ := Prod.mk.injEq .. ▸ Option.some.injEq .. ▸ h
      subst h1; subst h2
      refine ⟨?_, by simp⟩
      simp [List.takeWhile_append_dropWhile]
    · exact absurd h (by simp)

theorem upperName_len {s nm r : Str} (h : upperName s = some (nm, r)) :
    r.length < s.length := by
  obtain ⟨he, hne⟩ := upperName_sound h
  have : nm.length + r.length = s.length := by
    rw [← he]; simp
  cases nm with
  | nil => exact absurd rfl hne
  | cons a t => simp at this; omega

/-- Worker for the regex piece `(?:::[A-Z][A-Za-z0-9]*)*` (greedy).  The
fuel argument exists only to make the recursion structural; `s.length`
always suffices because every round consumes at least three characters
(`qualLoopF_irrel`). -/
def qualLoopF : Nat → Str → Str × Str
  | 0, s => ([], s)
  | _ + 1, [] => ([], [])
  | _ + 1, [c] => ([], [c])
  | fuel + 1, c1 :: c2 :: rest =>
    if c1 = ':' ∧ c2 = ':' then
      match upperName rest with
      | some st =>
        let q := qualLoopF fuel st.2
        (c1 :: c2 :: (st.1 ++ q.1), q.2)
      | none => ([], c1 :: c2 :: rest)
    else ([], c1 :: c2 :: rest)

/-- Regex piece `(?:::[A-Z][A-Za-z0-9]*)*`, greedy: consumed text and rest. -/
def qualLoop (s : Str) : Str × Str := qualLoopF s.length s

theorem qualLoopF_sound : ∀ (fuel : Nat) (s : Str),
    (qualLoopF fuel s).1 ++ (qualLoopF fuel s).2 = s := by
  intro fuel
  induction fuel with
  | zero => intro s; simp [qualLoopF]
  | succ n ih =>
    intro s
    cases s with
    | nil => simp [qualLoopF]
    | cons c1 t =>
      cases t with
      | nil => simp [qualLoopF]
      | cons c2 rest =>
        by_cases hc : c1 = ':' ∧ c2 = ':'
        · cases hst : upperName rest with
          | none => simp [qualLoopF, hc, hst]
          | some st =>
            have hu := (@upperName_sound rest st.1 st.2 (by simpa using hst)).1
            simp only [qualLoopF, if_pos hc, hst]
            simp only [List.cons_append, List.append_assoc, ih st.2, hu]
        · simp [qualLoopF, hc]

theorem qualLoop_sound (s : Str) : (qualLoop s).1 ++ (qualLoop s).2 = s :=
  qualLoopF_sound s.length s

theorem qualLoopF_irrel : ∀ (f1 : Nat) (s : Str) (f2 : Nat),
    s.length ≤ f1 → s.length ≤ f2 → qualLoopF f1 s = qualLoopF f2 s := by
  intro f1
  induction f1 with
  | zero =>
    intro s f2 h1 h2
    have hs : s = [] := List.eq_nil_of_length_eq_zero (Nat.le_zero.mp h1)
    subst hs
    cases f2 <;> simp [qualLoopF]
  | succ n ih =>
    intro s f2 h1 h2
    cases f2 with
    | zero =>
      have hs : s = [] := List.eq_nil_of_length_eq_zero (Nat.le_zero.mp h2)
      subst hs
      simp [qualLoopF]
    | succ m =>
      cases s with
      | nil => simp [qualLoopF]
      | cons c1 t =>
        cases t with
        | nil => simp [qualLoopF]
        | cons c2 rest =>
          by_cases hc : c1 = ':' ∧ c2 = ':'
          · cases hst : upperName rest with
            | none => simp [qualLoopF, hc, hst]
            | some st =>
              have hlen := upperName_len hst
              have hb1 : st.2.length ≤ n := by
                simp only [List.length_cons] at h1
                omega
              have hb2 : st.2.length ≤ m := by
                simp only [List.length_cons] at h2
                omega
              simp only [qualLoopF, if_pos hc, hst]
              rw [ih st.2 m hb1 hb2]
          · simp [qualLoopF, hc]

/-- The `(class|module)` alternation: returns the frame kind, the matched
keyword text and the rest.  (The two literals start with different
characters, so JS backtracking between them cannot fire.) -/
def kwClassModule (s : Str) : Option (Bool × Str × Str) :=
  match stripPrefixCh ("class".toList) s with
  | some r => some (true, "class".toList, r)
  | none =>
    match stripPrefixCh ("module".toList) s with
    | some r => some (false, "module".toList, r)
    | none => none

/-- `/^\s*(class|module)\s+([A-Z][A-Za-z0-9]*(?:::[A-Z][A-Za-z0-9]*)*)/`.
Returns (isClass, rawName, match0). -/
def declRe (line : Str) : Option (Bool × Str × Str) :=
  let sp := line.takeWhile isSpaceCh
  let r1 := line.dropWhile isSpaceCh
  match kwClassModule r1 with
  | none => none
  | some (isClass, kw, r2) =>
    let sp2 := r2.takeWhile isSpaceCh
    if sp2.isEmpty then none
    else
      match upperName (r2.dropWhile isSpaceCh) with
      | none => none
      | some (seg, r3) =>
        let q := qualLoop r3
        let nm := seg ++ q.1
        some (isClass, nm, sp ++ kw ++ sp2 ++ nm)

/-- `/^\s*([A-Z][A-Z0-9_]*)\s*=/`. Returns (name, match0). -/
def constantRe (line : Str) : Option (Str × Str) :=
  let sp := line.takeWhile isSpaceCh
  match line.dropWhile isSpaceCh with
  | [] => none
  | c :: rest =>
    if isUpperAsc c then
      let nm := c :: rest.takeWhile isConstCh
      let r2 := rest.dropWhile isConstCh
      let sp2 := r2.takeWhile isSpaceCh
      match r2.dropWhile isSpaceCh with
      | '=' :: _ => some (nm, sp ++ nm ++ sp2 ++ ['='])
      | _ => none
    else none

/-- `/^\s*scope\s+:([a-z_][a-z0-9_]*)/i`. Returns (scopeName, match0);
the captured name keeps its original case. -/
def scopeRe (line : Str) : Option (Str × Str) :=
  let sp := line.takeWhile isSpaceCh
  let r1 := line.dropWhile isSpaceCh
  match stripPrefixCI ("scope".toList) r1 with
  | none => none
  | some (kw, r2) =>
    let sp2 := r2.takeWhile isSpaceCh
    if sp2.isEmpty then none
    else
      match r2.dropWhile isSpaceCh with
      | ':' :: rest2 =>
        match rest2 with
        | [] => none
        | c :: rest3 =>
          if isAlphaAsc c || c == '_' then
            let nm := c :: rest3.takeWhile isWordCh
            some (nm, sp ++ kw ++ sp2 ++ ':' :: nm)
          else none
      | _ => none

/-- Regex piece `[a-zA-Z_][a-zA-Z0-9_]*[!?=]?` for method names. -/
def methodTail : Str → Option (Str × Str)
  | [] => none
  | c :: rest =>
    if isAlphaAsc c || c == '_' then
      let base := c :: rest.takeWhile isWordCh
      match rest.dropWhile isWordCh with
      | [] => some (base, [])
      | b :: r2 =>
        if b == '!' || b == '?' || b == '=' then some (base ++ [b], r2)
        else some (base, b :: r2)
    else none

/-- `/^\s*def\s+([A-Z][A-Za-z0-9_:]*)\.([a-zA-Z_][a-zA-Z0-9_]*[!?=]?)/`.
Returns (receiver, methodName, match0). -/
def receiverRe (line : Str) : Option (Str × Str × Str) :=
  let sp := line.takeWhile isSpaceCh
  let r1 := line.dropWhile isSpaceCh
  match stripPrefixCh ("def".toList) r1 with
  | none => none
  | some r2 =>
    let sp2 := r2.takeWhile isSpaceCh
    if sp2.isEmpty then none
    else
      match r2.dropWhile isSpaceCh with
      | [] => none
      | c :: rest =>
        if isUpperAsc c then
          let recv := c :: rest.takeWhile isRecvCh
          match rest.dropWhile isRecvCh with
          | '.' :: r4 =>
            match methodTail r4 with
            | some (m, _) =>
              some (recv, m, sp ++ "def".toList ++ sp2 ++ recv ++ '.' :: m)
            | none => none
          | _ => none
        else none

/-- `/^\s*def\s+self\.([a-zA-Z_][a-zA-Z0-9_]*[!?=]?)/`.
Returns (methodName, match0). -/
def classMethodRe (line : Str) : Option (Str × Str) :=
  let sp := line.takeWhile isSpaceCh
  let r1 := line.dropWhile isSpaceCh
  match stripPrefixCh ("def".toList) r1 with
  | none => none
  | some r2 =>
    let sp2 := r2.takeWhile isSpaceCh
    if sp2.isEmpty then none
    else
      match stripPrefixCh ("self.".toList) (r2.dropWhile isSpaceCh) with
      | none => none
      | some r3 =>
        match methodTail r3 with
        | some (m, _) =>
          some (m, sp ++ "def".toList ++ sp2 ++ "self.".toList ++ m)
        | none => none

/-- `/^\s*def\s+([a-zA-Z_][a-zA-Z0-9_]*[!?=]?)/`. Returns (methodName, match0). -/
def instanceRe (line : Str) : Option (Str × Str) :=
  let sp := line.takeWhile isSpaceCh
  let r1 := line.dropWhile isSpaceCh
  match stripPrefixCh ("def".toList) r1 with
  | none => none
  | some r2 =>
    let sp2 := r2.takeWhile isSpaceCh
    if sp2.isEmpty then none
    else
      match methodTail (r2.dropWhile isSpaceCh) with
      | some (m, _) =>
        some (m, sp ++ "def".toList ++ sp2 ++ m)
      | none => none

/-- `/^\s*end\b/.test(line)`. -/
def endLineTest (line : Str) : Bool :=
  let r1 := line.dropWhile isSpaceCh
  ("end".toList).isPrefixOf r1 && boundaryR (r1.drop 3)

/-- `/^\s*class\s+<</.test(line)`. -/
def shovelTest (line : Str) : Bool :=
  let r1 := line.dropWhile isSpaceCh
  ("class".toList).isPrefixOf r1 &&
    !((r1.drop 5).takeWhile isSpaceCh).isEmpty &&
    ("<<".toList).isPrefixOf ((r1.drop 5).dropWhile isSpaceCh)

/-- `/^\s*(def|if|unless|case|while|until|for|begin|do)\b/.test(line)`. -/
def otherBlockTest (line : Str) : Bool :=
  let r1 := line.dropWhile isSpaceCh
  (["def", "if", "unless", "case", "while", "until", "for", "begin", "do"].map
      String.toList).any
    (fun kw => kw.isPrefixOf r1 && boundaryR (r1.drop kw.length))

inductive FrameTy where
  | fClass
  | fModule
  | fOther
deriving DecidableEq, Repr

/-- One entry of the parser's nesting stack (top of stack at the head). -/
structure Frame where
  ftype : FrameTy
  name : Option Str
  absolute : Bool
  symbolIndex : Option Nat
deriving DecidableEq, Repr

/-- Output record of `parseRubySymbolsFromText` (src/rubyParser.ts:1-5):
only a name and a span, nothing else. -/
structure RubyParsedSymbol where
  name : Str
  index : Int
  length : Int
deriving DecidableEq, Repr

/-- Frames from the top of the stack down to (and including) the first
absolute frame; the whole stack if none is absolute. -/
def takeToAbsolute : List Frame → List Frame
  | [] => []
  | f :: rest => if f.absolute then [f] else f :: takeToAbsolute rest

/-- src/rubyParser.ts getPrefix: named ancestor frames starting from the
nearest absolute ancestor, in bottom-to-top order. -/
def getPrefix (stack : List Frame) : List Str :=
  ((takeToAbsolute stack).reverse).filterMap (fun f => f.name)

/-- src/rubyParser.ts getCurrentNamespace: name of the nearest enclosing
class/module frame. -/
def getCurrentNamespace : List Frame → Option Str
  | [] => none
  | f :: rest =>
    if (f.ftype == .fClass || f.ftype == .fModule) && f.name.isSome then f.name
    else getCurrentNamespace rest

/-- Full name assigned to a class/module declaration: a qualified raw name
is taken literally (empty namespace), otherwise the raw name is
prefixed by `getPrefix`. -/
def declFullName (stack : List Frame) (rawName : Str) : Str :=
  let pfx := if listIncludes rawName ("::".toList) then [] else getPrefix stack
  joinSep ("::".toList) (pfx ++ [rawName])

/-- One iteration of the parser's line loop (everything except the final
`offset` advance, which every branch performs identically).  `eol` is
`0` on the last line and the detected line-ending length otherwise. -/
def lineStep (eol : Nat) (line : Str) (offset : Nat) (stack : List Frame)
    (symbols : List RubyParsedSymbol) : List Frame × List RubyParsedSymbol :=
  if endLineTest line then
    match stack with
    | [] => ([], symbols)
    | popped :: restStack =>
      match popped.symbolIndex with
      | none => (restStack, symbols)
      | some symIdx =>
        match symbols.get? symIdx with
        | none => (restStack, symbols)
        | some s =>
          let endIndex : Int := (offset : Int) + line.length
          let newLength := max s.length (endIndex - s.index + eol)
          (restStack, symbols.set symIdx ⟨s.name, s.index, newLength⟩)
  else if shovelTest line then
    (⟨.fOther, none, false, none⟩ :: stack, symbols)
  else
    match declRe line with
    | some (isClass, rawName, m0) =>
      let isQualified := listIncludes rawName ("::".toList)
      let fullName := declFullName stack rawName
      let nameIndexInLine : Int := 0 + jsLastIndexOf m0 rawName
      let nameIndex : Int := (offset : Int) + nameIndexInLine
      let symbolIndex := symbols.length
      let afterDecl := line.drop m0.length
      if hasWordTok ("end".toList) afterDecl then
        let newLength : Int := (line.length : Int) - nameIndexInLine + eol
        (stack, symbols ++ [⟨fullName, nameIndex, max (rawName.length : Int) newLength⟩])
      else
        (⟨if isClass then .fClass else .fModule, some fullName, isQualified,
            some symbolIndex⟩ :: stack,
          symbols ++ [⟨fullName, nameIndex, (rawName.length : Int)⟩])
    | none =>
    match constantRe line with
    | some (constantName, m0) =>
      let fullName :=
        match getCurrentNamespace stack with
        | some ns => ns ++ "::".toList ++ constantName
        | none => constantName
      let nameIndexInLine : Int := 0 + jsIndexOf m0 constantName
      (stack, symbols ++ [⟨fullName, (offset : Int) + nameIndexInLine,
        (constantName.length : Int)⟩])
    | none =>
    match scopeRe line with
    | some (scopeName, m0) =>
      let fullName :=
        match getCurrentNamespace stack with
        | some ns => ns ++ ".".toList ++ scopeName
        | none => scopeName
      let nameIndexInLine : Int := 0 + jsIndexOf m0 scopeName
      let symbols1 := symbols ++ [⟨fullName, (offset : Int) + nameIndexInLine,
        (scopeName.length : Int)⟩]
      if hasWordTok ("do".toList) line then
        (⟨.fOther, none, false, none⟩ :: stack, symbols1)
      else
        (stack, symbols1)
    | none =>
    match receiverRe line with
    | some (receiver, methodName, m0) =>
      let fullName := receiver ++ ".".toList ++ methodName
      let nameIndex : Int := (offset : Int)
      let symbolIndex := symbols.length
      let afterDef := line.drop m0.length
      if hasWordTok ("end".toList) afterDef then
        let newLength : Int := (line.length : Int) + eol
        (stack, symbols ++ [⟨fullName, nameIndex, max (m0.length : Int) newLength⟩])
      else
        (⟨.fOther, none, false, some symbolIndex⟩ :: stack,
          symbols ++ [⟨fullName, nameIndex, (m0.length : Int)⟩])
    | none =>
    match classMethodRe line with
    | some (methodName, m0) =>
      let fullName :=
        match getCurrentNamespace stack with
        | some ns => ns ++ ".".toList ++ methodName
        | none => methodName
      let nameIndex : Int := (offset : Int)
      let symbolIndex := symbols.length
      let afterDef := line.drop m0.length
      if hasWordTok ("end".toList) afterDef then
        let newLength : Int := (line.length : Int) + eol
        (stack, symbols ++ [⟨fullName, nameIndex, max (m0.length : Int) newLength⟩])
      else
        (⟨.fOther, none, false, some symbolIndex⟩ :: stack,
          symbols ++ [⟨fullName, nameIndex, (m0.length : Int)⟩])
    | none =>
    match instanceRe line with
    | some (methodName, m0) =>
      let fullName :=
        match getCurrentNamespace stack with
        | some ns => ns ++ "#".toList ++ methodName
        | none => methodName
      let nameIndex : Int := (offset : Int)
      let symbolIndex := symbols.length
      let afterDef := line.drop m0.length
      if hasWordTok ("end".toList) afterDef then
        let newLength : Int := (line.length : Int) + eol
        (stack, symbols ++ [⟨fullName, nameIndex, max (m0.length : Int) newLength⟩])
      else
        (⟨.fOther, none, false, some symbolIndex⟩ :: stack,
          symbols ++ [⟨fullName, nameIndex, (m0.length : Int)⟩])
    | none =>
      if hasWordTok ("do".toList) line && !hasWordTok ("end".toList) line then
        (⟨.fOther, none, false, none⟩ :: stack, symbols)
      else if otherBlockTest line then
        (⟨.fOther, none, false, none⟩ :: stack, symbols)
      else
        (stack, symbols)

/-- The parser's main loop over the split lines. -/
def parseLoop (sep : Nat) : List Str → Nat → List Frame →
    List RubyParsedSymbol → List RubyParsedSymbol
  | [], _, _, symbols => symbols
  | line :: rest, offset, stack, symbols =>
    let eol := if rest.isEmpty then 0 else sep
    let st := lineStep eol line offset stack symbols
    parseLoop sep rest (offset + line.length + eol) st.1 st.2

/-- src/rubyParser.ts parseRubySymbolsFromText. -/
def parseRubySymbolsFromText (text : Str) : List RubyParsedSymbol :=
  parseLoop (if containsCRLF text then 2 else 1) (splitLinesJS text) 0 [] []

def normalizeQ (term : Str) : Str := toLowerL (jsTrim term)

/-- src/rubyParser.ts matchesRubySymbol. -/
def matchesRubySymbol (name term : Str) : Bool :=
  let normalized := normalizeQ term
  if normalized.isEmpty then true
  else
    let absoluteLookup := ("::".toList).isPrefixOf normalized
    let target := if absoluteLookup then normalized.drop 2 else normalized
    if ("::".toList).isSuffixOf target then
      let ns := target.take (target.length - 2)
      let nameLower := toLowerL name
      (nameLower == ns) || (ns ++ "::".toList).isPrefixOf nameLower
    else if (".".toList).isSuffixOf target then
      let ns := target.take (target.length - 1)
      (ns ++ ".".toList).isPrefixOf (toLowerL name)
    else if absoluteLookup then
      target.isPrefixOf (toLowerL name)
    else
      listIncludes (toLowerL name) target

/-- src/rubyParser.ts compareMatches. -/
def compareMatches (nameA nameB searchTerm : Str) : Int :=
  let normalized := normalizeQ searchTerm
  let lowerA := toLowerL nameA
  let lowerB := toLowerL nameB
  let aIsExact := lowerA == normalized
  let bIsExact := lowerB == normalized
  if aIsExact && !bIsExact then -1
  else if bIsExact && !aIsExact then 1
  else if aIsExact && bIsExact then 0
  else
    let aStartsWith := normalized.isPrefixOf lowerA
    let bStartsWith := normalized.isPrefixOf lowerB
    if aStartsWith && !bStartsWith then -1
    else if bStartsWith && !aStartsWith then 1
    else if aStartsWith && bStartsWith then (nameA.length : Int) - nameB.length
    else
      let aIndex := jsIndexOf lowerA normalized
      let bIndex := jsIndexOf lowerB normalized
      let aHasSubstring := aIndex != -1
      let bHasSubstring := bIndex != -1
      if aHasSubstring && !bHasSubstring then -1
      else if bHasSubstring && !aHasSubstring then 1
      else if aHasSubstring && bHasSubstring then
        if aIndex != bIndex then aIndex - bIndex
        else (nameA.length : Int) - nameB.length
      else 0

/-!
Model of src/symbolCache.ts.  A serialized cache (`Record<string,
CachedFileEntry>`) is an association list in insertion order; its
`JSON.stringify` image is reproduced character by character (keys are
assumed to need no JSON escaping, which holds for the path/name strings
hitting this code; UTF-8 `Buffer.byteLength` is the list length for the
ASCII serialization syntax).  `fs.statSync`/`openTextDocument` are
represented by a function from path to `(mtimeMs, contents)`, `none`
meaning the stat throws.  The per-file timeout race is real-time and is
modelled as extraction completing.
-/

/-- One entry of `CachedFileEntry.symbols` as persisted by saveToDisk. -/
structure SavedSym where
  name : Str
  sl : Nat
  sc : Nat
  el : Nat
  ec : Nat
  isPrivate : Option Bool
deriving DecidableEq, Repr

structure CachedFileEntry where
  symbols : List SavedSym
  mtime : Nat
deriving DecidableEq, Repr

def natStr (n : Nat) : Str := Nat.toDigits 10 n

def boolStr : Bool → Str
  | true => "true".toList
  | false => "false".toList

/-- JSON text of one saved symbol, field order as written by saveToDisk
(`name`, `isPrivate`, `range`); an `undefined` isPrivate is omitted by
`JSON.stringify`. -/
def savedSymJson (s : SavedSym) : Str :=
  "\x7b\"name\":\"".toList ++ s.name ++ "\"".toList ++
  (match s.isPrivate with
   | none => []
   | some b => ",\"isPrivate\":".toList ++ boolStr b) ++
  ",\"range\":\x7b\"start\":\x7b\"line\":".toList ++ natStr s.sl ++
  ",\"character\":".toList ++ natStr s.sc ++
  "\x7d,\"end\":\x7b\"line\":".toList ++ natStr s.el ++
  ",\"character\":".toList ++ natStr s.ec ++ "\x7d\x7d\x7d".toList

def entryJson (e : CachedFileEntry) : Str :=
  "\x7b\"symbols\":[".toList ++ joinComma (e.symbols.map savedSymJson) ++
  "],\"mtime\":".toList ++ natStr e.mtime ++ "\x7d".toList

def kvJson (pe : Str × CachedFileEntry) : Str :=
  "\"".toList ++ pe.1 ++ "\":".toList ++ entryJson pe.2

/-- `JSON.stringify` of the whole cache object. -/
def jsonStringify (data : List (Str × CachedFileEntry)) : Str :=
  "\x7b".toList ++ joinComma (data.map kvJson) ++ "\x7d".toList

/-- `Buffer.byteLength(JSON.stringify(data), 'utf-8')`. -/
def jsonLen (data : List (Str × CachedFileEntry)) : Nat :=
  (jsonStringify data).length

/-- Order used by `sort((a, b) => a[1].mtime - b[1].mtime)`. -/
def mtimeLe (a b : Str × CachedFileEntry) : Prop := a.2.mtime ≤ b.2.mtime

instance : DecidableRel mtimeLe := fun _ _ => Nat.decLe _ _

instance : IsTotal (Str × CachedFileEntry) mtimeLe := ⟨fun a b => Nat.le_total a.2.mtime b.2.mtime⟩

instance : IsTrans (Str × CachedFileEntry) mtimeLe := ⟨fun _ _ _ => Nat.le_trans⟩

/-- The accumulation loop of pruneIfNeeded: walk the mtime-ascending array
from its end (newest first), keep an entry while the projected serialized
size stays at or below 90% of the cap (the float `0.9 * maxSizeBytes` is
modelled as the exact rational, compared as `10·size ≤ 9·cap`), and stop
at the first entry that does not fit. -/
def pruneLoop (maxSizeBytes : Nat) (acc : List (Str × CachedFileEntry)) :
    List (Str × CachedFileEntry) → List (Str × CachedFileEntry)
  | [] => acc
  | e :: rest =>
    if 10 * jsonLen (acc ++ [e]) ≤ 9 * maxSizeBytes then
      pruneLoop maxSizeBytes (acc ++ [e]) rest
    else acc

/-- src/symbolCache.ts pruneIfNeeded (the stable ascending sort of the JS
runtime is modelled by insertion sort). -/
def pruneIfNeeded (maxSizeMB : Nat) (cacheData : List (Str × CachedFileEntry)) :
    List (Str × CachedFileEntry) :=
  let maxSizeBytes := maxSizeMB * 1024 * 1024
  if jsonLen cacheData ≤ maxSizeBytes then cacheData
  else pruneLoop maxSizeBytes [] ((List.insertionSort mtimeLe cacheData).reverse)

/-- A `RubySymbol` as stored in the in-memory cache: name, a
(line, character) range and the (never populated) isPrivate flag. -/
structure RubySymbolRec where
  name : Str
  startPos : Nat × Nat
  endPos : Nat × Nat
  isPrivate : Option Bool
deriving DecidableEq, Repr

/-- vscode `TextDocument.positionAt`: clamp, count full lines before the
offset, column since the last line break. -/
def positionAt (text : Str) (off : Nat) : Nat × Nat :=
  let pre := text.take off
  (pre.count '\n', (pre.reverse.takeWhile (fun c => c != '\n')).length)

def positionAtI (text : Str) (off : Int) : Nat × Nat := positionAt text off.toNat

/-- src/symbolCache.ts extractSymbolsFromDocument: maps the parser's
records to `RubySymbol`s.  The source reads `entry.isPrivate`, a field
`RubyParsedSymbol` does not have, so the stored flag is `undefined`
(`none`) for every record. -/
def extractSymbolsFromDocument (text : Str) : List RubySymbolRec :=
  (parseRubySymbolsFromText text).map fun e =>
    ⟨e.name, positionAtI text e.index, positionAtI text (e.index + e.length), none⟩

/-- loadFromDisk's per-symbol mapping (name and range only; the persisted
isPrivate flag is not carried over). -/
def loadSym (s : SavedSym) : RubySymbolRec := ⟨s.name, (s.sl, s.sc), (s.el, s.ec), none⟩

/-- The SymbolCache state relevant here, with an instrumentation counter
for extractor invocations. -/
structure IndexState where
  cache : List (Str × List RubySymbolRec)
  fileModTimes : List (Str × Nat)
  parseCalls : Nat
deriving DecidableEq, Repr

def alookup {V : Type} : List (Str × V) → Str → Option V
  | [], _ => none
  | (k0, v0) :: rest, k => if k0 = k then some v0 else alookup rest k

/-- `Map.set`: replace an existing key in place, append a new one. -/
def aupdate {V : Type} : List (Str × V) → Str → V → List (Str × V)
  | [], k, v => [(k, v)]
  | (k0, v0) :: rest, k, v =>
    if k0 = k then (k0, v) :: rest else (k0, v0) :: aupdate rest k v

/-- One iteration of loadFromDisk's entry loop: stat the file (a throw
skips the entry), and adopt the cached symbols only when the stored mtime
equals the current one. -/
def loadEntry (fs : Str → Option (Nat × Str)) (st : IndexState)
    (pe : Str × CachedFileEntry) : IndexState :=
  match fs pe.1 with
  | none => st
  | some (currentMtime, _) =>
    if pe.2.mtime = currentMtime then
      { st with
        cache := aupdate st.cache pe.1 (pe.2.symbols.map loadSym),
        fileModTimes := aupdate st.fileModTimes pe.1 currentMtime }
    else st

/-- src/symbolCache.ts loadFromDisk over a parsed cache file. -/
def loadFromDisk (fs : Str → Option (Nat × Str))
    (disk : List (Str × CachedFileEntry)) (st : IndexState) : IndexState :=
  disk.foldl (loadEntry fs) st

/-- src/symbolCache.ts parseFileIfNeeded: skip when the cached mtime equals
the current one and the file is present in the cache; otherwise extract
and store (counting the extractor invocation). -/
def parseFileIfNeeded (fs : Str → Option (Nat × Str)) (p : Str)
    (st : IndexState) : IndexState :=
  match fs p with
  | none => st
  | some (currentMtime, text) =>
    if alookup st.fileModTimes p = some currentMtime ∧ (alookup st.cache p).isSome then
      st
    else
      { cache := aupdate st.cache p (extractSymbolsFromDocument text),
        fileModTimes := aupdate st.fileModTimes p currentMtime,
        parseCalls := st.parseCalls + 1 }

/-- Span validity of one parsed record with respect to a text length. -/
def symInv (bound : Nat) (s : RubyParsedSymbol) : Prop :=
  0 ≤ s.index ∧ s.index + s.length ≤ (bound : Int)

/-- Total number of characters the parser's offset accounting attributes to
a list of lines, given a separator width. -/
def totalLen (sep : Nat) : List Str → Nat
  | [] => 0
  | [l] => l.length
  | l :: rest => l.length + sep + totalLen sep rest

/-- Shift a parsed record's start offset. -/
def shiftSym (d : Nat) (s : RubyParsedSymbol) : RubyParsedSymbol :=
  ⟨s.name, s.index + (d : Int), s.length⟩

/-- The `aIsExact` test of compareMatches. -/
def cmExact (a q : Str) : Bool := toLowerL a == normalizeQ q

/-- The `aStartsWith` test of compareMatches. -/
def cmStarts (a q : Str) : Bool := (normalizeQ q).isPrefixOf (toLowerL a)

/-- The `aIndex` value of compareMatches. -/
def cmIdx (a q : Str) : Int := jsIndexOf (toLowerL a) (normalizeQ q)

/-- A cache entry whose single symbol name alone exceeds 90% of a 1 MB cap. -/
def wBigSym : SavedSym := ⟨List.replicate 1200000 'x', 0, 0, 0, 1, none⟩

def wBigData : List (Str × CachedFileEntry) := [("a".toList, ⟨[wBigSym], 5⟩)]

/-- A one-file disk cache used to instantiate the freshness theorem. -/
def wDisk : List (Str × CachedFileEntry) :=
  [("f.rb".toList, ⟨[⟨"A".toList, 0, 6, 1, 3, none⟩], 7⟩)]

/-- A filesystem where that file still has the cached mtime. -/
def wFs : Str → Option (Nat × Str) :=
  fun q => if q = "f.rb".toList then some (7, "class A\nend".toList) else none

/-! Auxiliary facts about the string primitives. -/

theorem isPrefixOfE {l₁ l₂ : Str} (h : l₁.isPrefixOf l₂ = true) : ∃ t, l₁ ++ t = l₂ :=
  List.isPrefixOf_iff_prefix.mp h

theorem isPrefixOfI {l₁ l₂ : Str} (t : Str) (h : l₁ ++ t = l₂) : l₁.isPrefixOf l₂ = true :=
  List.isPrefixOf_iff_prefix.mpr ⟨t, h⟩

theorem isSuffixOfE {l₁ l₂ : Str} (h : l₁.isSuffixOf l₂ = true) : ∃ p, p ++ l₁ = l₂ :=
  List.isSuffixOf_iff_suffix.mp h

theorem jsIndexOfNat_bound {s sub : Str} {i : Nat}
    (h : jsIndexOfNat s sub = some i) : i + sub.length ≤ s.length := by
  induction s generalizing i with
  | nil =>
    simp only [jsIndexOfNat] at h
    split at h
    · obtain ⟨t, ht⟩ := isPrefixOfE (by assumption)
      have hs : sub = [] := by cases sub <;> simp_all
      obtain rfl : i = 0 := by simp_all
      simp [hs]
    · cases h
  | cons c t ih =>
    simp only [jsIndexOfNat] at h
    split at h
    · obtain ⟨r, hr⟩ := isPrefixOfE (by assumption)
      obtain rfl : i = 0 := by simp_all
      have : sub.length + r.length = (c :: t).length := by rw [← hr]; simp
      omega
    · obtain ⟨j, hj, rfl⟩ := Option.map_eq_some'.mp h
      have := ih hj
      simp only [List.length_cons]
      omega

theorem jsIndexOfNat_of_occurrence {s sub : Str} (p q : Str)
    (h : p ++ sub ++ q = s) : (jsIndexOfNat s sub).isSome := by
  induction p generalizing s with
  | nil =>
    have hp : sub.isPrefixOf s = true := isPrefixOfI q (by simpa using h)
    cases s with
    | nil => simp [jsIndexOfNat, hp]
    | cons c t => simp [jsIndexOfNat, hp]
  | cons a p' ih =>
    cases s with
    | nil => simp at h
    | cons c t =>
      have hct : p' ++ sub ++ q = t := by
        have := List.cons.injEq .. ▸ h
        simp only [List.cons_append] at h
        exact (List.cons.injEq .. ▸ h).2
      have := ih hct
      simp only [jsIndexOfNat]
      split
      · simp
      · simpa using this

theorem jsLastIndexOfNat_bound {s sub : Str} {i : Nat} (hne : sub ≠ [])
    (h : jsLastIndexOfNat s sub = some i) : i + sub.length ≤ s.length := by
  induction s generalizing i with
  | nil =>
    simp only [jsLastIndexOfNat] at h
    split at h
    · obtain ⟨t, ht⟩ := isPrefixOfE (by assumption)
      simp_all
    · cases h
  | cons c t ih =>
    simp only [jsLastIndexOfNat] at h
    split at h
    · rename_i j hj
      obtain rfl : i = j + 1 := by simp_all
      have := ih hj
      simp only [List.length_cons]
      omega
    · split at h
      · obtain ⟨r, hr⟩ := isPrefixOfE (by assumption)
        obtain rfl : i = 0 := by simp_all
        have : sub.length + r.length = (c :: t).length := by rw [← hr]; simp
        omega
      · cases h

theorem jsLastIndexOfNat_suffix {s sub : Str} (hne : sub ≠ []) (p : Str)
    (h : p ++ sub = s) : jsLastIndexOfNat s sub = some p.length := by
  induction s generalizing p with
  | nil =>
    have : sub = [] := by
      cases p <;> simp_all
    exact absurd this hne
  | cons c t ih =>
    cases p with
    | nil =>
      simp only [List.nil_append] at h
      have hnone : jsLastIndexOfNat t sub = none := by
        cases hlt : jsLastIndexOfNat t sub with
        | none => rfl
        | some j =>
          have := jsLastIndexOfNat_bound hne hlt
          have : sub.length = t.length + 1 := by rw [h]; simp
          omega
      simp only [jsLastIndexOfNat, hnone]
      have : sub.isPrefixOf (c :: t) = true := isPrefixOfI [] (by simpa using h)
      simp [this]
    | cons a p' =>
      simp only [List.cons_append, List.cons.injEq] at h
      obtain ⟨rfl, h2⟩ := h
      have := ih p' h2
      simp [jsLastIndexOfNat, this]

theorem jsIndexOf_of_nat {s sub : Str} {i : Nat} (h : jsIndexOfNat s sub = some i) :
    jsIndexOf s sub = (i : Int) := by
  simp [jsIndexOf, h]

theorem jsLastIndexOf_of_nat {s sub : Str} {i : Nat} (h : jsLastIndexOfNat s sub = some i) :
    jsLastIndexOf s sub = (i : Int) := by
  simp [jsLastIndexOf, h]

theorem stripPrefixCh_sound {pat s r : Str} (h : stripPrefixCh pat s = some r) :
    pat ++ r = s := by
  simp only [stripPrefixCh] at h
  split at h
  · obtain ⟨t, ht⟩ := isPrefixOfE (by assumption)
    obtain rfl : r = s.drop pat.length := by simp_all
    rw [← ht, List.drop_left]
  · cases h

theorem stripPrefixCI_sound {pat s m r : Str} (h : stripPrefixCI pat s = some (m, r)) :
    m ++ r = s := by
  simp only [stripPrefixCI] at h
  split at h
  · obtain ⟨rfl, rfl⟩ : m = s.take pat.length ∧ r = s.drop pat.length := by simp_all
    exact List.take_append_drop _ s
  · cases h

theorem methodTail_sound {s m r : Str} (h : methodTail s = some (m, r)) :
    m ++ r = s := by
  cases s with
  | nil => simp [methodTail] at h
  | cons c rest =>
    have hw := List.takeWhile_append_dropWhile (p := isWordCh) (l := rest)
    simp only [methodTail] at h
    split at h
    · split at h
      · rename_i hd
        obtain ⟨rfl, rfl⟩ : m = c :: rest.takeWhile isWordCh ∧ r = [] := by simp_all
        rw [hd] at hw
        simp only [List.append_nil] at hw
        simp [hw]
      · split at h
        · rename_i b r2 hd hb
          obtain ⟨rfl, rfl⟩ : m = (c :: rest.takeWhile isWordCh) ++ [b] ∧ r = r2 := by
            simp_all
          rw [hd] at hw
          simp only [List.cons_append, List.append_assoc, List.singleton_append,
            List.nil_append]
          rw [hw]
        · rename_i b r2 hd hb
          obtain ⟨rfl, rfl⟩ : m = c :: rest.takeWhile isWordCh ∧ r = b :: r2 := by
            simp_all
          rw [hd] at hw
          simp only [List.cons_append]
          rw [hw]
    · cases h

theorem kwClassModule_sound {s : Str} {b : Bool} {kw r : Str}
    (h : kwClassModule s = some (b, kw, r)) : kw ++ r = s := by
  simp only [kwClassModule] at h
  split at h
  · rename_i r' hr
    obtain ⟨rfl, rfl, rfl⟩ : b = true ∧ kw = "class".toList ∧ r = r' := by simp_all
    exact stripPrefixCh_sound hr
  · split at h
    · rename_i r' hr
      obtain ⟨rfl, rfl, rfl⟩ : b = false ∧ kw = "module".toList ∧ r = r' := by simp_all
      exact stripPrefixCh_sound hr
    · cases h

theorem declRe_sound {line : Str} {k : Bool} {nm m0 : Str}
    (h : declRe line = some (k, nm, m0)) :
    (∃ r, m0 ++ r = line) ∧ nm ≠ [] ∧ ∃ p, p ++ nm = m0 := by
  have hline := List.takeWhile_append_dropWhile (p := isSpaceCh) (l := line)
  simp only [declRe] at h
  split at h
  · cases h
  · rename_i isClass kw r2 hkw
    have hr1 : kw ++ r2 = line.dropWhile isSpaceCh := kwClassModule_sound hkw
    split at h
    · cases h
    · split at h
      · cases h
      · rename_i seg r3 hup
        have hseg := upperName_sound hup
        have hq := qualLoop_sound r3
        rw [Option.some.injEq, Prod.mk.injEq, Prod.mk.injEq] at h
        obtain ⟨rfl, rfl, rfl⟩ := h
        have hW := List.takeWhile_append_dropWhile (p := isSpaceCh) (l := r2)
        refine ⟨⟨(qualLoop r3).2, ?_⟩, ?_,
          ⟨line.takeWhile isSpaceCh ++ kw ++ r2.takeWhile isSpaceCh, by
            simp [List.append_assoc]⟩⟩
        · simp only [List.append_assoc]
          rw [hq, hseg.1, hW, hr1, hline]
        · exact fun hc => hseg.2 (List.append_eq_nil.mp hc).1

theorem constantRe_sound {line nm m0 : Str}
    (h : constantRe line = some (nm, m0)) :
    (∃ r, m0 ++ r = line) ∧ nm ≠ [] ∧ ∃ p q, p ++ nm ++ q = m0 := by
  have hline := List.takeWhile_append_dropWhile (p := isSpaceCh) (l := line)
  simp only [constantRe] at h
  split at h
  · cases h
  · rename_i c rest hdw
    split at h
    · split at h
      · rename_i tail heq2
        rw [Option.some.injEq, Prod.mk.injEq] at h
        obtain ⟨rfl, rfl⟩ := h
        have hR := List.takeWhile_append_dropWhile (p := isConstCh) (l := rest)
        have hS := List.takeWhile_append_dropWhile (p := isSpaceCh)
          (l := rest.dropWhile isConstCh)
        refine ⟨⟨tail, ?_⟩, by simp, ⟨line.takeWhile isSpaceCh,
          (rest.dropWhile isConstCh).takeWhile isSpaceCh ++ ['='], by
            simp [List.append_assoc]⟩⟩
        simp only [List.append_assoc, List.cons_append, List.singleton_append,
          List.nil_append]
        rw [← heq2, hS, hR, ← hdw, hline]
      · cases h
    · cases h

theorem scopeRe_sound {line nm m0 : Str}
    (h : scopeRe line = some (nm, m0)) :
    (∃ r, m0 ++ r = line) ∧ nm ≠ [] ∧ ∃ p, p ++ nm = m0 := by
  have hline := List.takeWhile_append_dropWhile (p := isSpaceCh) (l := line)
  simp only [scopeRe] at h
  split at h
  · cases h
  · rename_i kwm r2 hci
    have hr1 : kwm ++ r2 = line.dropWhile isSpaceCh := stripPrefixCI_sound hci
    split at h
    · cases h
    · split at h
      · rename_i rest2 heq2
        split at h
        · cases h
        · rename_i c rest3
          split at h
          · rw [Option.some.injEq, Prod.mk.injEq] at h
            obtain ⟨rfl, rfl⟩ := h
            have hW := List.takeWhile_append_dropWhile (p := isWordCh) (l := rest3)
            have hS := List.takeWhile_append_dropWhile (p := isSpaceCh) (l := r2)
            refine ⟨⟨rest3.dropWhile isWordCh, ?_⟩, by simp,
              ⟨line.takeWhile isSpaceCh ++ kwm ++ r2.takeWhile isSpaceCh ++ [':'], by
                simp [List.append_assoc]⟩⟩
            simp only [List.append_assoc, List.cons_append]
            rw [hW, ← heq2, hS, hr1, hline]
          · cases h
      · cases h

theorem receiverRe_sound {line recv mth m0 : Str}
    (h : receiverRe line = some (recv, mth, m0)) : ∃ r, m0 ++ r = line := by
  have hline := List.takeWhile_append_dropWhile (p := isSpaceCh) (l := line)
  simp only [receiverRe] at h
  split at h
  · cases h
  · rename_i r2 hdef
    have hr1 : "def".toList ++ r2 = line.dropWhile isSpaceCh := stripPrefixCh_sound hdef
    split at h
    · cases h
    · split at h
      · cases h
      · rename_i c rest heq2
        split at h
        · split at h
          · rename_i r4 heq3
            split at h
            · rename_i m r6 hmt
              rw [Option.some.injEq, Prod.mk.injEq, Prod.mk.injEq] at h
              obtain ⟨rfl, rfl, rfl⟩ := h
              have hR := List.takeWhile_append_dropWhile (p := isRecvCh) (l := rest)
              have hS := List.takeWhile_append_dropWhile (p := isSpaceCh) (l := r2)
              have hm := methodTail_sound hmt
              refine ⟨r6, ?_⟩
              simp only [List.append_assoc, List.cons_append]
              rw [hm, ← heq3, hR, ← heq2, hS, hr1, hline]
            · cases h
          · cases h
        · cases h

theorem classMethodRe_sound {line mth m0 : Str}
    (h : classMethodRe line = some (mth, m0)) : ∃ r, m0 ++ r = line := by
  have hline := List.takeWhile_append_dropWhile (p := isSpaceCh) (l := line)
  simp only [classMethodRe] at h
  split at h
  · cases h
  · rename_i r2 hdef
    have hr1 : "def".toList ++ r2 = line.dropWhile isSpaceCh := stripPrefixCh_sound hdef
    split at h
    · cases h
    · split at h
      · cases h
      · rename_i r3 hself
        have hr3 : "self.".toList ++ r3 = r2.dropWhile isSpaceCh := stripPrefixCh_sound hself
        split at h
        · rename_i m r6 hmt
          rw [Option.some.injEq, Prod.mk.injEq] at h
          obtain ⟨rfl, rfl⟩ := h
          have hS := List.takeWhile_append_dropWhile (p := isSpaceCh) (l := r2)
          have hm := methodTail_sound hmt
          refine ⟨r6, ?_⟩
          simp only [List.append_assoc]
          rw [hm, hr3, hS, hr1, hline]
        · cases h

theorem instanceRe_sound {line mth m0 : Str}
    (h : instanceRe line = some (mth, m0)) : ∃ r, m0 ++ r = line := by
  have hline := List.takeWhile_append_dropWhile (p := isSpaceCh) (l := line)
  simp only [instanceRe] at h
  split at h
  · cases h
  · rename_i r2 hdef
    have hr1 : "def".toList ++ r2 = line.dropWhile isSpaceCh := stripPrefixCh_sound hdef
    split at h
    · cases h
    · split at h
      · rename_i m r6 hmt
        rw [Option.some.injEq, Prod.mk.injEq] at h
        obtain ⟨rfl, rfl⟩ := h
        have hS := List.takeWhile_append_dropWhile (p := isSpaceCh) (l := r2)
        have hm := methodTail_sound hmt
        refine ⟨r6, ?_⟩
        simp only [List.append_assoc]
        rw [hm, hS, hr1, hline]
      · cases h

theorem symInv_mono {b1 b2 : Nat} {s : RubyParsedSymbol} (hle : b1 ≤ b2)
    (h : symInv b1 s) : symInv b2 s := by
  obtain ⟨h1, h2⟩ := h
  refine ⟨h1, le_trans h2 ?_⟩
  exact_mod_cast Nat.cast_le.mpr hle

/-- Every branch of `lineStep` keeps record spans inside the text consumed
so far (the invariant behind span containment). -/
theorem lineStep_inv {eol : Nat} {line : Str} {offset : Nat} {stack : List Frame}
    {symbols : List RubyParsedSymbol}
    (hsym : ∀ s ∈ symbols, symInv offset s) :
    ∀ s ∈ (lineStep eol line offset stack symbols).2,
      symInv (offset + line.length + eol) s := by
  have hmono : ∀ s ∈ symbols, symInv (offset + line.length + eol) s :=
    fun s hs => symInv_mono (by omega) (hsym s hs)
  have happend : ∀ x : RubyParsedSymbol, symInv (offset + line.length + eol) x →
      ∀ s ∈ symbols ++ [x], symInv (offset + line.length + eol) s := by
    intro x hx s hs
    rcases List.mem_append.mp hs with hmem | hmem
    · exact hmono s hmem
    · rw [List.mem_singleton.mp hmem]; exact hx
  unfold lineStep
  split
  · -- closing `end` line
    split
    · simpa using hmono
    · split
      · simpa using hmono
      · split
        · simpa using hmono
        · rename_i popped restStack symIdx hsi s hget
          intro x hx
          rcases List.mem_or_eq_of_mem_set hx with hmem | rfl
          · exact hmono x hmem
          · have hs := hsym s (List.get?_mem hget)
            have h1 := hs.2
            have h0 := hs.1
            refine ⟨h0, ?_⟩
            dsimp only
            push_cast at *
            omega
  · split
    · simpa using hmono
    · split
      · -- class/module declaration
        rename_i isClass rawName m0 hdecl
        obtain ⟨⟨r, hr⟩, hnm, p, hp⟩ := declRe_sound hdecl
        have hlast : jsLastIndexOf m0 rawName = (p.length : Int) :=
          jsLastIndexOf_of_nat (jsLastIndexOfNat_suffix hnm p hp)
        have hm0 : m0.length + r.length = line.length := by rw [← hr]; simp
        have hpl : p.length + rawName.length = m0.length := by rw [← hp]; simp
        dsimp only
        split <;>
          · refine happend _ ?_
            simp only [symInv, hlast]
            push_cast
            omega
      · split
        · -- constant assignment
          rename_i constantName m0 hconst
          obtain ⟨⟨r, hr⟩, hnm, p, q, hpq⟩ := constantRe_sound hconst
          obtain ⟨j, hj⟩ :=
            Option.isSome_iff_exists.mp (jsIndexOfNat_of_occurrence p q hpq)
          have hidx : jsIndexOf m0 constantName = (j : Int) := jsIndexOf_of_nat hj
          have hb := jsIndexOfNat_bound hj
          have hm0 : m0.length + r.length = line.length := by rw [← hr]; simp
          dsimp only
          refine happend _ ?_
          simp only [symInv, hidx]
          push_cast
          omega
        · split
          · -- scope declaration
            rename_i scopeName m0 hscope
            obtain ⟨⟨r, hr⟩, hnm, p, hp⟩ := scopeRe_sound hscope
            obtain ⟨j, hj⟩ := Option.isSome_iff_exists.mp
              (jsIndexOfNat_of_occurrence p [] (by simpa using hp))
            have hidx : jsIndexOf m0 scopeName = (j : Int) := jsIndexOf_of_nat hj
            have hb := jsIndexOfNat_bound hj
            have hm0 : m0.length + r.length = line.length := by rw [← hr]; simp
            dsimp only
            split <;>
              · refine happend _ ?_
                simp only [symInv, hidx]
                push_cast
                omega
          · split
            · -- receiver singleton method
              rename_i receiver methodName m0 hrecv
              obtain ⟨r, hr⟩ := receiverRe_sound hrecv
              have hm0 : m0.length + r.length = line.length := by rw [← hr]; simp
              dsimp only
              split <;>
                · refine happend _ ?_
                  simp only [symInv]
                  push_cast
                  omega
            · split
              · -- `def self.` method
                rename_i methodName m0 hcm
                obtain ⟨r, hr⟩ := classMethodRe_sound hcm
                have hm0 : m0.length + r.length = line.length := by rw [← hr]; simp
                dsimp only
                split <;>
                  · refine happend _ ?_
                    simp only [symInv]
                    push_cast
                    omega
              · split
                · -- instance method
                  rename_i methodName m0 him
                  obtain ⟨r, hr⟩ := instanceRe_sound him
                  have hm0 : m0.length + r.length = line.length := by rw [← hr]; simp
                  dsimp only
                  split <;>
                    · refine happend _ ?_
                      simp only [symInv]
                      push_cast
                      omega
                · split
                  · simpa using hmono
                  · split
                    · simpa using hmono
                    · simpa using hmono

theorem parseLoop_bound {sep : Nat} : ∀ (lines : List Str) (offset : Nat)
    (stack : List Frame) (symbols : List RubyParsedSymbol),
    (∀ s ∈ symbols, symInv offset s) →
    ∀ s ∈ parseLoop sep lines offset stack symbols,
      symInv (offset + totalLen sep lines) s := by
  intro lines
  induction lines with
  | nil =>
    intro offset stack symbols hsym
    simpa [parseLoop, totalLen] using hsym
  | cons line rest ih =>
    intro offset stack symbols hsym
    rw [parseLoop]
    intro s hs
    have hstep := @lineStep_inv (if rest.isEmpty then 0 else sep) line offset stack
      symbols hsym
    have hrec := ih (offset + line.length + (if rest.isEmpty then 0 else sep))
      (lineStep (if rest.isEmpty then 0 else sep) line offset stack symbols).1
      (lineStep (if rest.isEmpty then 0 else sep) line offset stack symbols).2
      hstep s hs
    refine symInv_mono ?_ hrec
    cases rest with
    | nil => simp [totalLen]
    | cons a b => simp [totalLen]; omega

theorem splitLinesJS_ne_nil (s : Str) : splitLinesJS s ≠ [] := by
  induction s using splitLinesJS.induct with
  | case1 => simp [splitLinesJS]
  | case2 rest ih => simp [splitLinesJS]
  | case3 rest ih => simp [splitLinesJS]
  | case4 c rest h1 h2 hm ih =>
    rw [splitLinesJS]
    · rw [hm]; simp
    · exact h1
    · exact h2
  | case5 c rest h1 h2 l ls hm ih =>
    rw [splitLinesJS]
    · rw [hm]; simp
    · exact h1
    · exact h2

theorem totalLen_cons_ne (sep : Nat) (l : Str) (ls : List Str) (h : ls ≠ []) :
    totalLen sep (l :: ls) = l.length + sep + totalLen sep ls := by
  cases ls with
  | nil => exact absurd rfl h
  | cons a b => rfl

theorem totalLen_cons_cons (sep : Nat) (c : Char) (l : Str) (ls : List Str) :
    totalLen sep ((c :: l) :: ls) = 1 + totalLen sep (l :: ls) := by
  cases ls <;> simp [totalLen] <;> omega

theorem noCR_containsCRLF (s : Str) : '\r' ∉ s → containsCRLF s = false := by
  induction s using containsCRLF.induct with
  | case1 tail =>
    intro h
    simp at h
  | case2 head t h1 ih =>
    intro h
    rw [containsCRLF]
    · exact ih (fun hc => h (List.mem_cons_of_mem _ hc))
    · exact h1
  | case3 =>
    intro h
    rfl

theorem noCR_totalLen (s : Str) : '\r' ∉ s → totalLen 1 (splitLinesJS s) = s.length := by
  induction s using splitLinesJS.induct with
  | case1 =>
    intro h
    rfl
  | case2 rest ih =>
    intro h
    simp at h
  | case3 rest ih =>
    intro h
    have hr : '\r' ∉ rest := fun hc => h (List.mem_cons_of_mem _ hc)
    rw [splitLinesJS, totalLen_cons_ne 1 [] _ (splitLinesJS_ne_nil rest), ih hr]
    simp only [List.length_nil, List.length_cons]
    omega
  | case4 c rest h1 h2 hm ih =>
    intro h
    have hr : '\r' ∉ rest := fun hc => h (List.mem_cons_of_mem _ hc)
    have hih := ih hr
    rw [splitLinesJS]
    · rw [hm]
      rw [hm] at hih
      simp only [totalLen] at hih
      simp only [totalLen, List.length_cons, List.length_singleton, List.length_nil]
      omega
    · exact h1
    · exact h2
  | case5 c rest h1 h2 l ls hm ih =>
    intro h
    have hr : '\r' ∉ rest := fun hc => h (List.mem_cons_of_mem _ hc)
    have hih := ih hr
    rw [splitLinesJS]
    · rw [hm]
      rw [hm] at hih
      rw [totalLen_cons_cons, hih]
      simp only [List.length_cons]
      omega
    · exact h1
    · exact h2

theorem noNl_split (s : Str) : '\n' ∉ s → splitLinesJS s = [s] := by
  induction s using splitLinesJS.induct with
  | case1 => intro h; rfl
  | case2 rest ih => intro h; simp at h
  | case3 rest ih => intro h; simp at h
  | case4 c rest h1 h2 hm ih =>
    intro h
    exact absurd hm (splitLinesJS_ne_nil rest)
  | case5 c rest h1 h2 l ls hm ih =>
    intro h
    have hr : '\n' ∉ rest := fun hc => h (List.mem_cons_of_mem _ hc)
    have hih := ih hr
    rw [hm] at hih
    obtain ⟨rfl, rfl⟩ : l = rest ∧ ls = [] := by
      constructor <;> [exact (List.cons.injEq .. ▸ hih).1; exact (List.cons.injEq .. ▸ hih).2]
    rw [splitLinesJS]
    · rw [hm]
    · exact h1
    · exact h2

theorem takeToAbsolute_anchor : ∀ (top : List Frame) (f : Frame) (rest : List Frame),
    (∀ g ∈ top, g.absolute = false) → f.absolute = true →
    takeToAbsolute (top ++ f :: rest) = top ++ [f] := by
  intro top
  induction top with
  | nil =>
    intro f rest htop hf
    simp [takeToAbsolute, hf]
  | cons g gs ih =>
    intro f rest htop hf
    have hg : g.absolute = false := htop g (by simp)
    have ih' := ih f rest (fun x hx => htop x (by simp [hx])) hf
    simp only [List.cons_append, takeToAbsolute, hg, Bool.false_eq_true, if_false,
      List.append_eq]
    rw [ih']

/-- A line accepted by the receiver-method regex is rejected by every
branch the parser tries before it. -/
theorem receiverRe_excl {line : Str} {recv mth m0 : Str}
    (h : receiverRe line = some (recv, mth, m0)) :
    endLineTest line = false ∧ shovelTest line = false ∧ declRe line = none ∧
    constantRe line = none ∧ scopeRe line = none := by
  have hr1 : ∃ r2, "def".toList ++ r2 = line.dropWhile isSpaceCh := by
    simp only [receiverRe] at h
    split at h
    · cases h
    · rename_i r2 hdef
      exact ⟨r2, stripPrefixCh_sound hdef⟩
  obtain ⟨r2, hr1⟩ := hr1
  have hd : line.dropWhile isSpaceCh = 'd' :: 'e' :: 'f' :: r2 := by rw [← hr1]; rfl
  have hsc : ¬(toLowerL (('d' :: 'e' :: 'f' :: r2).take ("scope".toList).length) =
      "scope".toList ∧ ("scope".toList).length ≤ ('d' :: 'e' :: 'f' :: r2).length) := by
    rintro ⟨hEq, -⟩
    have hhd := congrArg (fun l => l.headD 'x') hEq
    simp [toLowerL] at hhd
  refine ⟨?_, ?_, ?_, ?_, ?_⟩
  · simp only [endLineTest]
    rw [hd]
    rfl
  · simp only [shovelTest]
    rw [hd]
    rfl
  · simp only [declRe]
    rw [hd]
    rfl
  · simp only [constantRe]
    rw [hd]
    rfl
  · simp only [scopeRe]
    rw [hd]
    simp only [stripPrefixCI, if_neg hsc]

/-- C1 (code bug): for source text declaring `def bar` after a bare
`private` line, the extractor's records carry no visibility at all:
`RubyParsedSymbol` has no such field and `extractSymbolsFromDocument`
stores `undefined` (`none`) as `isPrivate` for every record, in
particular for `Foo#bar`, which the spec says must be Private. -/
theorem c1_private_marker_ignored :
    extractSymbolsFromDocument ("class Foo\n  private\n  def bar\n  end\nend".toList) =
      [⟨"Foo".toList, (0, 6), (4, 3), none⟩,
       ⟨"Foo#bar".toList, (2, 0), (4, 0), none⟩] := by
  decide

/-- C2 (amended): every record's startOffset is nonnegative for every
input, and for inputs without carriage returns the span lies inside the
text; the original claim's third clause — that the record's (fully
qualified) name occurs inside the spanned substring — is dropped, see
the counterexample. -/
theorem c2_span_bounds : ∀ text : Str,
    (∀ r ∈ parseRubySymbolsFromText text, 0 ≤ r.index) ∧
    ('\r' ∉ text → ∀ r ∈ parseRubySymbolsFromText text,
      r.index + r.length ≤ (text.length : Int)) := by
  intro text
  have hbase : ∀ s ∈ ([] : List RubyParsedSymbol), symInv 0 s := by simp
  constructor
  · intro r hr
    exact (parseLoop_bound (splitLinesJS text) 0 [] [] hbase r hr).1
  · intro hcr r hr
    have hb := (@parseLoop_bound (if containsCRLF text then 2 else 1)
      (splitLinesJS text) 0 [] [] hbase r hr).2
    have hsep : (if containsCRLF text then 2 else 1) = 1 := by
      rw [noCR_containsCRLF text hcr]
      simp
    rw [hsep, noCR_totalLen text hcr] at hb
    simpa using hb

theorem c2_span_bounds_witness :
    parseRubySymbolsFromText ("class Foo\nend".toList) = [⟨"Foo".toList, 6, 7⟩] ∧
    '\r' ∉ ("class Foo\nend".toList) ∧
    (0 : Int) ≤ (6 : Int) ∧
    (6 : Int) + 7 ≤ (("class Foo\nend".toList).length : Int) := by
  refine ⟨by decide, by decide, ?_, ?_⟩
  · exact (c2_span_bounds ("class Foo\nend".toList)).1 ⟨"Foo".toList, 6, 7⟩ (by decide)
  · exact (c2_span_bounds ("class Foo\nend".toList)).2 (by decide)
      ⟨"Foo".toList, 6, 7⟩ (by decide)

/-- C2 counterexample: the record for the nested class carries the
qualified name `Foo::Bar`, which does not occur inside its span, and on
input with mixed line endings a span even exceeds the text length. -/
theorem c2_cex :
    parseRubySymbolsFromText ("module Foo\n  class Bar\n  end\nend".toList) =
      [⟨"Foo".toList, 7, 25⟩, ⟨"Foo::Bar".toList, 19, 10⟩] ∧
    listIncludes ((("module Foo\n  class Bar\n  end\nend".toList).drop 19).take 10)
      ("Foo::Bar".toList) = false ∧
    parseRubySymbolsFromText ("a\nb\r\nclass Foo".toList) = [⟨"Foo".toList, 12, 3⟩] ∧
    ¬((12 : Int) + 3 ≤ (("a\nb\r\nclass Foo".toList).length : Int)) := by
  decide

/-- C4 (confirmed): a `::`-qualified declaration keeps its literal name,
the namespace of an unqualified declaration starts at the nearest
absolute ancestor frame (deeper frames are ignored), and the spec's
concrete example extracts exactly `Foo::Bar` and `Foo::Bar::Baz`. -/
theorem c4_absolute_reset :
    (∀ (stack : List Frame) (nm : Str),
      listIncludes nm ("::".toList) = true → declFullName stack nm = nm) ∧
    (∀ (top : List Frame) (f : Frame) (bottom : List Frame),
      (∀ g ∈ top, g.absolute = false) → f.absolute = true →
      getPrefix (top ++ f :: bottom) = getPrefix (top ++ [f])) ∧
    ((parseRubySymbolsFromText ("class Foo::Bar\n class Baz\n end\n end".toList)).map
        (fun r => r.name) = ["Foo::Bar".toList, "Foo::Bar::Baz".toList]) := by
  refine ⟨?_, ?_, by decide⟩
  · intro stack nm h
    have h2 : listIncludes nm [':', ':'] = true := h
    simp [declFullName, h2, joinSep]
  · intro top f bottom htop hf
    unfold getPrefix
    rw [takeToAbsolute_anchor top f bottom htop hf]
    rw [show top ++ [f] = top ++ f :: [] from rfl]
    rw [takeToAbsolute_anchor top f [] htop hf]

theorem c4_absolute_reset_witness :
    declFullName [⟨.fModule, some ("Outer".toList), false, none⟩] ("Foo::Bar".toList) =
      "Foo::Bar".toList ∧
    getPrefix ([⟨.fOther, none, false, none⟩] ++
        (⟨.fClass, some ("X".toList), true, none⟩ : Frame) ::
        [⟨.fModule, some ("Y".toList), false, none⟩]) =
      getPrefix ([⟨.fOther, none, false, none⟩] ++
        [⟨.fClass, some ("X".toList), true, none⟩]) :=
  ⟨(c4_absolute_reset).1 _ _ (by decide),
   (c4_absolute_reset).2.1 [⟨.fOther, none, false, none⟩] _ _
     (by intro g hg; simp at hg; rw [hg]) (by decide)⟩

/-- C5 (amended): for queries that trim to a `::`-prefixed string whose
remainder does not itself end in `::`, matching is exactly a
case-insensitive starts-with test on the remainder; queries ending in
`::` instead take the namespace branch (see the counterexample).  The
three concrete examples of the claim hold. -/
theorem c5_absolute_query :
    (∀ name term : Str,
      ("::".toList).isPrefixOf (normalizeQ term) = true →
      ("::".toList).isSuffixOf ((normalizeQ term).drop 2) = false →
      (matchesRubySymbol name term = true ↔
        ((normalizeQ term).drop 2).isPrefixOf (toLowerL name) = true)) ∧
    matchesRubySymbol ("Baz::Foo::Bar".toList) ("::Foo::Bar".toList) = false ∧
    matchesRubySymbol ("Foo::Bar".toList) ("::Foo::Bar".toList) = true ∧
    matchesRubySymbol ("Baz::Foo::Bar".toList) ("Foo::Bar".toList) = true := by
  refine ⟨?_, by decide, by decide, by decide⟩
  intro name term habs hsuf
  have hne : (normalizeQ term).isEmpty = false := by
    obtain ⟨t, ht⟩ := isPrefixOfE habs
    rw [← ht]
    rfl
  simp only [matchesRubySymbol, hne, habs, hsuf, Bool.false_eq_true, if_false,
    if_true, Bool.true_eq_false]
  by_cases hdot : (".".toList).isSuffixOf ((normalizeQ term).drop 2) = true
  · obtain ⟨p, hp⟩ := isSuffixOfE hdot
    have htake : ((normalizeQ term).drop 2).take (((normalizeQ term).drop 2).length - 1) = p := by
      rw [← hp]
      simp
    simp only [hdot, if_true, htake, hp]
  · simp only [hdot, Bool.false_eq_true, if_false]

theorem c5_absolute_query_witness :
    ("::".toList).isPrefixOf (normalizeQ ("::Foo::Bar".toList)) = true ∧
    ("::".toList).isSuffixOf ((normalizeQ ("::Foo::Bar".toList)).drop 2) = false ∧
    (matchesRubySymbol ("Baz::Foo::Bar".toList) ("::Foo::Bar".toList) = true ↔
      ((normalizeQ ("::Foo::Bar".toList)).drop 2).isPrefixOf
        (toLowerL ("Baz::Foo::Bar".toList)) = true) :=
  ⟨by decide, by decide, (c5_absolute_query).1 _ _ (by decide) (by decide)⟩

/-- C5 counterexample: for the query `::Foo::` (starts with `::` after
trimming) and the name `Foo`, the matcher returns true although the name
does not start with the query minus its `::` prefix — the namespace
branch for queries ending in `::` fires first. -/
theorem c5_cex :
    matchesRubySymbol ("Foo".toList) ("::Foo::".toList) = true ∧
    ((normalizeQ ("::Foo::".toList)).drop 2).isPrefixOf (toLowerL ("Foo".toList)) = false := by
  decide

/-- C6 (amended): a receiver singleton method line is recorded under the
literal receiver text ++ `.` ++ method name — but its span starts at the
beginning of the declaration line (offset 0 of the anchored match,
including the indentation), not at the `def` keyword. -/
theorem c6_receiver_name_span : ∀ (line recv mth m0 : Str),
    '\n' ∉ line →
    receiverRe line = some (recv, mth, m0) →
    ∃ len, parseRubySymbolsFromText line = [⟨recv ++ ".".toList ++ mth, 0, len⟩] := by
  intro line recv mth m0 hn h
  obtain ⟨hend, hshov, hdecl, hconst, hscope⟩ := receiverRe_excl h
  rw [parseRubySymbolsFromText, noNl_split line hn, parseLoop, parseLoop]
  unfold lineStep
  simp only [hend, hshov, hdecl, hconst, hscope, h, Bool.false_eq_true, if_false]
  split
  · exact ⟨_, rfl⟩
  · exact ⟨_, rfl⟩

theorem c6_receiver_name_span_witness :
    '\n' ∉ ("  def User.admins".toList) ∧
    receiverRe ("  def User.admins".toList) =
      some ("User".toList, "admins".toList, "  def User.admins".toList) ∧
    ∃ len, parseRubySymbolsFromText ("  def User.admins".toList) =
      [⟨"User".toList ++ ".".toList ++ "admins".toList, 0, len⟩] :=
  ⟨by decide, by decide,
   c6_receiver_name_span ("  def User.admins".toList) ("User".toList)
     ("admins".toList) ("  def User.admins".toList) (by decide) (by decide)⟩

/-- C6 counterexample: for the indented line `  def User.admins` the
record's span starts at offset 0 (the line start), while the `def` token
sits at offset 2. -/
theorem c6_cex :
    parseRubySymbolsFromText ("  def User.admins\n  end".toList) =
      [⟨"User.admins".toList, 0, 23⟩] ∧
    jsIndexOfNat ("  def User.admins\n  end".toList) ("def".toList) = some 2 ∧
    (0 : Int) ≠ 2 := by
  decide

/-- C3 (amended): compareMatches orders a fixed query's matches by
exact > prefix > substring, shorter first among prefix matches, earlier
occurrence then shorter among substring matches, and is antisymmetric
(`c(a,b) = -c(b,a)`), i.e. a total preorder — but ties are NOT restricted
to literally identical names (see the counterexample), so it is not a
total order in the claimed sense.  The spec's ranking example holds. -/
theorem c3_compare_props :
    (∀ a b q : Str,
      compareMatches a b q = -compareMatches b a q ∧
      (cmExact a q = true → cmExact b q = false → compareMatches a b q < 0) ∧
      (cmExact a q = false → cmExact b q = false → cmStarts a q = true →
        cmStarts b q = false → compareMatches a b q < 0) ∧
      (cmExact a q = false → cmExact b q = false → cmStarts a q = true →
        cmStarts b q = true →
        compareMatches a b q = (a.length : Int) - (b.length : Int)) ∧
      (cmExact a q = false → cmExact b q = false → cmStarts a q = false →
        cmStarts b q = false → cmIdx a q ≠ -1 → cmIdx b q = -1 →
        compareMatches a b q < 0) ∧
      (cmExact a q = false → cmExact b q = false → cmStarts a q = false →
        cmStarts b q = false → cmIdx a q ≠ -1 → cmIdx b q ≠ -1 →
        compareMatches a b q =
          (if cmIdx a q ≠ cmIdx b q then cmIdx a q - cmIdx b q
           else (a.length : Int) - (b.length : Int)))) ∧
    compareMatches ("User::Admin".toList) ("User::AdminCount".toList)
      ("User::Admin".toList) < 0 ∧
    compareMatches ("User::AdminCount".toList) ("SuperUser::Admin".toList)
      ("User::Admin".toList) < 0 ∧
    compareMatches ("User::Admin".toList) ("SuperUser::Admin".toList)
      ("User::Admin".toList) < 0 := by
  refine ⟨?_, by decide, by decide, by decide⟩
  intro a b q
  refine ⟨?_, ?_, ?_, ?_, ?_, ?_⟩
  · simp only [compareMatches]
    generalize (toLowerL a == normalizeQ q) = aE
    generalize (toLowerL b == normalizeQ q) = bE
    generalize ((normalizeQ q).isPrefixOf (toLowerL a)) = aS
    generalize ((normalizeQ q).isPrefixOf (toLowerL b)) = bS
    generalize (jsIndexOf (toLowerL a) (normalizeQ q)) = aI
    generalize (jsIndexOf (toLowerL b) (normalizeQ q)) = bI
    rcases aE <;> rcases bE <;> rcases aS <;> rcases bS <;>
      simp only [Bool.false_and, Bool.true_and, Bool.and_false, Bool.and_true,
        Bool.not_false, Bool.not_true, if_true, if_false, Bool.true_eq_false,
        Bool.false_eq_true] <;>
      first
        | omega
        | (split_ifs <;> simp_all <;> try omega)
  · intro h1 h2
    simp only [cmExact] at h1 h2
    simp only [compareMatches, h1, h2]
    simp
  · intro h1 h2 h3 h4
    simp only [cmExact] at h1 h2
    simp only [cmStarts] at h3 h4
    simp only [compareMatches, h1, h2, h3, h4]
    simp
  · intro h1 h2 h3 h4
    simp only [cmExact] at h1 h2
    simp only [cmStarts] at h3 h4
    simp only [compareMatches, h1, h2, h3, h4]
    simp
  · intro h1 h2 h3 h4
    simp only [cmExact] at h1 h2
    simp only [cmStarts] at h3 h4
    simp only [cmIdx]
    simp only [compareMatches, h1, h2, h3, h4]
    generalize (jsIndexOf (toLowerL a) (normalizeQ q)) = aI
    generalize (jsIndexOf (toLowerL b) (normalizeQ q)) = bI
    intro h5 h6
    simp only [Bool.false_and, Bool.true_and, Bool.and_false, Bool.and_true,
      Bool.not_false, Bool.not_true, if_true, if_false, Bool.true_eq_false,
      Bool.false_eq_true]
    split_ifs <;> simp_all <;> omega
  · intro h1 h2 h3 h4
    simp only [cmExact] at h1 h2
    simp only [cmStarts] at h3 h4
    simp only [cmIdx]
    simp only [compareMatches, h1, h2, h3, h4]
    generalize (jsIndexOf (toLowerL a) (normalizeQ q)) = aI
    generalize (jsIndexOf (toLowerL b) (normalizeQ q)) = bI
    intro h5 h6
    simp only [Bool.false_and, Bool.true_and, Bool.and_false, Bool.and_true,
      Bool.not_false, Bool.not_true, if_true, if_false, Bool.true_eq_false,
      Bool.false_eq_true]
    split_ifs <;> simp_all <;> omega

/-- C3 counterexample: two literally different names compare equal — both
are equal-length prefix matches of the query (ties are not confined to
identical strings). -/
theorem c3_cex :
    compareMatches ("AB".toList) ("AC".toList) ("a".toList) = 0 ∧
    ("AB".toList : Str) ≠ ("AC".toList : Str) := by
  decide

theorem c3_compare_props_witness :
    cmExact ("User::Admin".toList) ("User::Admin".toList) = true ∧
    cmExact ("SuperUser::Admin".toList) ("User::Admin".toList) = false ∧
    compareMatches ("User::Admin".toList) ("SuperUser::Admin".toList)
      ("User::Admin".toList) < 0 :=
  ⟨by decide, by decide,
   ((c3_compare_props).1 ("User::Admin".toList) ("SuperUser::Admin".toList)
     ("User::Admin".toList)).2.1 (by decide) (by decide)⟩

theorem pruneLoop_append {mb : Nat} : ∀ (l acc : List (Str × CachedFileEntry)),
    ∃ t d, pruneLoop mb acc l = acc ++ t ∧ t ++ d = l := by
  intro l
  induction l with
  | nil =>
    intro acc
    exact ⟨[], [], by simp [pruneLoop], rfl⟩
  | cons e rest ih =>
    intro acc
    rw [pruneLoop]
    split
    · obtain ⟨t, d, h1, h2⟩ := ih (acc ++ [e])
      exact ⟨e :: t, d, by simpa [List.append_assoc] using h1, by simp [h2]⟩
    · exact ⟨[], e :: rest, by simp, rfl⟩

theorem pruneLoop_size {mb : Nat} : ∀ (l acc : List (Str × CachedFileEntry)),
    (acc = [] ∨ 10 * jsonLen acc ≤ 9 * mb) →
    (pruneLoop mb acc l = [] ∨ 10 * jsonLen (pruneLoop mb acc l) ≤ 9 * mb) := by
  intro l
  induction l with
  | nil =>
    intro acc h
    simpa [pruneLoop] using h
  | cons e rest ih =>
    intro acc h
    rw [pruneLoop]
    split
    · exact ih (acc ++ [e]) (Or.inr (by assumption))
    · exact h

/-- C7 (confirmed): whenever the serialized cache exceeds the configured
cap (taken positive, in MB as the source computes it), the pruned result
serializes to at most 90% of the cap (the float `0.9·cap` modelled as the
exact rational) and no removed entry has a strictly newer mtime than any
kept entry — pruning is oldest-first. -/
theorem c7_prune_props : ∀ (maxSizeMB : Nat) (data : List (Str × CachedFileEntry)),
    1 ≤ maxSizeMB → maxSizeMB * 1024 * 1024 < jsonLen data →
    10 * jsonLen (pruneIfNeeded maxSizeMB data) ≤ 9 * (maxSizeMB * 1024 * 1024) ∧
    ∀ pe ∈ data, pe ∉ pruneIfNeeded maxSizeMB data →
      ∀ pk ∈ pruneIfNeeded maxSizeMB data, pe.2.mtime ≤ pk.2.mtime := by
  intro mb data h1 h2
  simp only [pruneIfNeeded]
  rw [if_neg (by omega)]
  obtain ⟨t, d, hEq, hSplit⟩ :=
    @pruneLoop_append (mb * 1024 * 1024)
      ((List.insertionSort mtimeLe data).reverse) []
  simp only [List.nil_append] at hEq
  constructor
  · rcases pruneLoop_size ((List.insertionSort mtimeLe data).reverse) []
      (Or.inl rfl) with hnil | hle
    · rw [hnil]
      have h2len : jsonLen [] = 2 := by decide
      rw [h2len]
      omega
    · exact hle
  · intro pe hpe hnotin pk hpk
    have hperm := List.perm_insertionSort mtimeLe data
    have hmem : pe ∈ (List.insertionSort mtimeLe data).reverse := by
      rw [List.mem_reverse]
      exact (hperm.mem_iff).mpr hpe
    rw [hEq] at hnotin hpk
    have hped : pe ∈ d := by
      rw [← hSplit] at hmem
      rcases List.mem_append.mp hmem with hmem2 | hmem2
      · exact absurd hmem2 hnotin
      · exact hmem2
    have hsorted : List.Pairwise mtimeLe (List.insertionSort mtimeLe data) :=
      List.sorted_insertionSort mtimeLe data
    have hrev : List.Pairwise (flip mtimeLe) (List.insertionSort mtimeLe data).reverse :=
      List.pairwise_reverse.mpr hsorted
    rw [← hSplit] at hrev
    exact (List.pairwise_append.mp hrev).2.2 pk hpk pe hped

theorem c7_big_size : 1 * 1024 * 1024 < jsonLen wBigData := by
  simp only [wBigData, wBigSym, jsonLen, jsonStringify, kvJson, entryJson,
    savedSymJson, joinComma, List.map_cons, List.map_nil, List.length_append,
    List.length_cons, List.length_replicate]
  omega

theorem c7_prune_props_witness :
    1 ≤ 1 ∧ 1 * 1024 * 1024 < jsonLen wBigData ∧
    (10 * jsonLen (pruneIfNeeded 1 wBigData) ≤ 9 * (1 * 1024 * 1024) ∧
     ∀ pe ∈ wBigData, pe ∉ pruneIfNeeded 1 wBigData →
       ∀ pk ∈ pruneIfNeeded 1 wBigData, pe.2.mtime ≤ pk.2.mtime) :=
  ⟨le_refl 1, c7_big_size, c7_prune_props 1 wBigData (le_refl 1) c7_big_size⟩

/-- C10 (confirmed): when the cache exceeds the cap and even the single
newest entry projects to more than 90% of the cap, the loop stops before
keeping anything and pruning returns the empty table. -/
theorem c10_prune_can_empty : ∀ (maxSizeMB : Nat)
    (data : List (Str × CachedFileEntry)) (p : Str) (e : CachedFileEntry)
    (rest : List (Str × CachedFileEntry)),
    maxSizeMB * 1024 * 1024 < jsonLen data →
    (List.insertionSort mtimeLe data).reverse = (p, e) :: rest →
    9 * (maxSizeMB * 1024 * 1024) < 10 * jsonLen [(p, e)] →
    pruneIfNeeded maxSizeMB data = [] := by
  intro mb data p e rest h1 h2 h3
  simp only [pruneIfNeeded]
  rw [if_neg (by omega), h2, pruneLoop]
  split
  · rename_i hcond
    simp only [List.nil_append] at hcond
    omega
  · rfl

theorem c10_prune_can_empty_witness :
    0 * 1024 * 1024 < jsonLen [("a".toList, (⟨[], 5⟩ : CachedFileEntry))] ∧
    (List.insertionSort mtimeLe [("a".toList, (⟨[], 5⟩ : CachedFileEntry))]).reverse =
      [("a".toList, (⟨[], 5⟩ : CachedFileEntry))] ∧
    9 * (0 * 1024 * 1024) < 10 * jsonLen [("a".toList, (⟨[], 5⟩ : CachedFileEntry))] ∧
    pruneIfNeeded 0 [("a".toList, (⟨[], 5⟩ : CachedFileEntry))] = [] :=
  ⟨by decide, by decide, by decide,
   c10_prune_can_empty 0 _ ("a".toList) ⟨[], 5⟩ [] (by decide) (by decide) (by decide)⟩

theorem alookup_aupdate_self {V : Type} (m : List (Str × V)) (k : Str) (v : V) :
    alookup (aupdate m k v) k = some v := by
  induction m with
  | nil => simp [aupdate, alookup]
  | cons kv rest ih =>
    obtain ⟨k0, v0⟩ := kv
    by_cases h : k0 = k
    · simp [aupdate, alookup, h]
    · simp [aupdate, alookup, h, ih]

theorem alookup_aupdate_other {V : Type} (m : List (Str × V)) (k k2 : Str) (v : V)
    (h : k ≠ k2) : alookup (aupdate m k v) k2 = alookup m k2 := by
  induction m with
  | nil => simp [aupdate, alookup, h]
  | cons kv rest ih =>
    obtain ⟨k0, v0⟩ := kv
    have h3 : ¬k2 = k := fun hh => h hh.symm
    by_cases h0 : k0 = k
    · subst h0
      have h2 : k0 ≠ k2 := h
      simp [aupdate, alookup, h2]
    · by_cases h2 : k0 = k2 <;> simp [aupdate, alookup, h0, h2, h3, ih]

theorem load_untouched (fs : Str → Option (Nat × Str)) (p : Str) :
    ∀ (disk : List (Str × CachedFileEntry)) (st : IndexState),
    p ∉ disk.map Prod.fst →
    alookup (loadFromDisk fs disk st).fileModTimes p = alookup st.fileModTimes p ∧
    alookup (loadFromDisk fs disk st).cache p = alookup st.cache p := by
  intro disk
  induction disk with
  | nil =>
    intro st h
    exact ⟨rfl, rfl⟩
  | cons qd rest ih =>
    intro st h
    have hq : qd.1 ≠ p := by
      intro hc
      apply h
      rw [List.map_cons, hc]
      exact List.mem_cons_self _ _
    have hnotin : p ∉ rest.map Prod.fst := by
      intro hc
      apply h
      rw [List.map_cons]
      exact List.mem_cons_of_mem _ hc
    simp only [loadFromDisk, List.foldl_cons]
    have hrest := ih (loadEntry fs st qd) hnotin
    simp only [loadFromDisk] at hrest
    have hle : alookup (loadEntry fs st qd).fileModTimes p = alookup st.fileModTimes p ∧
        alookup (loadEntry fs st qd).cache p = alookup st.cache p := by
      unfold loadEntry
      split
      · exact ⟨rfl, rfl⟩
      · split
        · exact ⟨alookup_aupdate_other _ _ _ _ hq, alookup_aupdate_other _ _ _ _ hq⟩
        · exact ⟨rfl, rfl⟩
    exact ⟨hrest.1.trans hle.1, hrest.2.trans hle.2⟩

theorem load_found (fs : Str → Option (Nat × Str)) :
    ∀ (disk : List (Str × CachedFileEntry)) (st : IndexState)
      (p : Str) (e : CachedFileEntry) (txt : Str),
    (disk.map Prod.fst).Nodup → (p, e) ∈ disk → fs p = some (e.mtime, txt) →
    alookup (loadFromDisk fs disk st).fileModTimes p = some e.mtime ∧
    (alookup (loadFromDisk fs disk st).cache p).isSome = true := by
  intro disk
  induction disk with
  | nil =>
    intro st p e txt hnd hmem hfs
    simp at hmem
  | cons qd rest ih =>
    intro st p e txt hnd hmem hfs
    simp only [loadFromDisk, List.foldl_cons]
    rcases List.mem_cons.mp hmem with heq | hmem2
    · subst heq
      have hp : p ∉ rest.map Prod.fst := by
        simp only [List.map_cons, List.nodup_cons] at hnd
        exact hnd.1
      have hload := load_untouched fs p rest (loadEntry fs st (p, e)) hp
      simp only [loadFromDisk] at hload
      have hstore : alookup (loadEntry fs st (p, e)).fileModTimes p = some e.mtime ∧
          (alookup (loadEntry fs st (p, e)).cache p).isSome = true := by
        simp only [loadEntry, hfs]
        simp only [if_true]
        refine ⟨alookup_aupdate_self _ _ _, ?_⟩
        rw [alookup_aupdate_self]
        rfl
      exact ⟨hload.1.trans hstore.1, by rw [hload.2]; exact hstore.2⟩
    · have hnd2 : (rest.map Prod.fst).Nodup := by
        simp only [List.map_cons, List.nodup_cons] at hnd
        exact hnd.2
      have hres := ih (loadEntry fs st qd) p e txt hnd2 hmem2 hfs
      simpa only [loadFromDisk] using hres

/-- C8 (confirmed): after loading the disk cache, a file whose current
on-disk mtime equals the stored one is skipped by parseFileIfNeeded —
the state (including the extractor-invocation counter and the cached
symbols) is returned unchanged, so the extractor is never invoked. -/
theorem c8_fresh_file_skipped : ∀ (fs : Str → Option (Nat × Str))
    (disk : List (Str × CachedFileEntry)) (p : Str) (e : CachedFileEntry) (txt : Str),
    (disk.map Prod.fst).Nodup → (p, e) ∈ disk → fs p = some (e.mtime, txt) →
    parseFileIfNeeded fs p (loadFromDisk fs disk ⟨[], [], 0⟩) =
      loadFromDisk fs disk ⟨[], [], 0⟩ := by
  intro fs disk p e txt hnd hmem hfs
  have h := load_found fs disk ⟨[], [], 0⟩ p e txt hnd hmem hfs
  unfold parseFileIfNeeded
  simp only [hfs]
  rw [if_pos ⟨h.1, h.2⟩]

theorem c8_fresh_file_skipped_witness :
    (wDisk.map Prod.fst).Nodup ∧
    ("f.rb".toList, (⟨[⟨"A".toList, 0, 6, 1, 3, none⟩], 7⟩ : CachedFileEntry)) ∈ wDisk ∧
    wFs ("f.rb".toList) = some (7, "class A\nend".toList) ∧
    parseFileIfNeeded wFs ("f.rb".toList) (loadFromDisk wFs wDisk ⟨[], [], 0⟩) =
      loadFromDisk wFs wDisk ⟨[], [], 0⟩ := by
  refine ⟨by decide, by decide, by decide, ?_⟩
  exact c8_fresh_file_skipped wFs wDisk ("f.rb".toList)
    ⟨[⟨"A".toList, 0, 6, 1, 3, none⟩], 7⟩ ("class A\nend".toList)
    (by decide) (by decide) (by decide)

/-- Advancing the running offset only translates the produced spans: one
line step at `offset + d` over shifted records equals the shift of the
step at `offset`. -/
theorem lineStep_shift (eol : Nat) (line : Str) (offset d : Nat)
    (stack : List Frame) (symbols : List RubyParsedSymbol) :
    lineStep eol line (offset + d) stack (symbols.map (shiftSym d)) =
      ((lineStep eol line offset stack symbols).1,
       (lineStep eol line offset stack symbols).2.map (shiftSym d)) := by
  unfold lineStep
  split
  · split
    · rfl
    · split
      · rfl
      · rename_i popped restStack symIdx hsi
        rw [List.get?_map]
        cases hget : symbols.get? symIdx with
        | none => simp [hget]
        | some s =>
          simp only [hget, Option.map_some']
          rw [List.map_set]
          simp only [Prod.mk.injEq, true_and]
          congr 1
          simp only [shiftSym, RubyParsedSymbol.mk.injEq, true_and]
          push_cast
          omega
  · split
    · rfl
    · split
      · rename_i isClass rawName m0 hdecl
        dsimp only
        split <;>
          · simp only [Prod.mk.injEq, List.map_append, List.map_cons, List.map_nil,
              shiftSym, List.length_map, RubyParsedSymbol.mk.injEq,
              List.append_cancel_left_eq, List.cons.injEq, and_true, true_and]
            push_cast
            omega
      · split
        · rename_i constantName m0 hconst
          dsimp only
          simp only [Prod.mk.injEq, List.map_append, List.map_cons, List.map_nil,
            shiftSym, List.length_map, RubyParsedSymbol.mk.injEq,
            List.append_cancel_left_eq, List.cons.injEq, and_true, true_and]
          push_cast
          omega
        · split
          · rename_i scopeName m0 hscope
            dsimp only
            split <;>
              · simp only [Prod.mk.injEq, List.map_append, List.map_cons, List.map_nil,
                  shiftSym, List.length_map, RubyParsedSymbol.mk.injEq,
                  List.append_cancel_left_eq, List.cons.injEq, and_true, true_and]
                push_cast
                omega
          · split
            · rename_i receiver methodName m0 hrecv
              dsimp only
              split <;>
                · simp only [Prod.mk.injEq, List.map_append, List.map_cons, List.map_nil,
                    shiftSym, List.length_map, RubyParsedSymbol.mk.injEq,
                    List.append_cancel_left_eq, List.cons.injEq, and_true, true_and]
                  push_cast
                  omega
            · split
              · rename_i methodName m0 hcm
                dsimp only
                split <;>
                  · simp only [Prod.mk.injEq, List.map_append, List.map_cons,
                      List.map_nil, shiftSym, List.length_map,
                      RubyParsedSymbol.mk.injEq, List.append_cancel_left_eq,
                      List.cons.injEq, and_true, true_and]
                    push_cast
                    omega
              · split
                · rename_i methodName m0 him
                  dsimp only
                  split <;>
                    · simp only [Prod.mk.injEq, List.map_append, List.map_cons,
                        List.map_nil, shiftSym, List.length_map,
                        RubyParsedSymbol.mk.injEq, List.append_cancel_left_eq,
                        List.cons.injEq, and_true, true_and]
                      push_cast
                      omega
                · split
                  · rfl
                  · split
                    · rfl
                    · rfl

theorem parseLoop_shift (sep : Nat) : ∀ (lines : List Str) (offset d : Nat)
    (stack : List Frame) (symbols : List RubyParsedSymbol),
    parseLoop sep lines (offset + d) stack (symbols.map (shiftSym d)) =
      (parseLoop sep lines offset stack symbols).map (shiftSym d) := by
  intro lines
  induction lines with
  | nil =>
    intro offset d stack symbols
    simp [parseLoop]
  | cons line rest ih =>
    intro offset d stack symbols
    rw [parseLoop, parseLoop]
    simp only [lineStep_shift]
    have harith : offset + d + line.length + (if rest.isEmpty then 0 else sep) =
        offset + line.length + (if rest.isEmpty then 0 else sep) + d := by omega
    rw [harith]
    exact ih (offset + line.length + (if rest.isEmpty then 0 else sep)) d _ _

theorem splitLinesJS_cons_char (c : Char) (rest : Str) (h1 : c ≠ '\n') (h2 : c ≠ '\r') :
    splitLinesJS (c :: rest) =
      (c :: (splitLinesJS rest).headD []) :: (splitLinesJS rest).tail := by
  rw [splitLinesJS]
  · obtain ⟨l, ls, hls⟩ := List.exists_cons_of_ne_nil (splitLinesJS_ne_nil rest)
    rw [hls]
    simp
  · intro r hc1 hc2
    exact h2 hc1
  · exact fun hc => h1 hc

/-- C9 (confirmed): the parser is a total function of the text, and a
closing `end` line with an empty nesting stack is a no-op: prepending
such a line (to arbitrary — including unbalanced — input) leaves the
extracted records unchanged except that all start offsets shift by the
length of the prepended line. -/
theorem c9_end_pop_noop : ∀ text : Str,
    parseRubySymbolsFromText (("end\n".toList) ++ text) =
      (parseRubySymbolsFromText text).map
        (shiftSym (3 + (if containsCRLF text then 2 else 1))) := by
  intro text
  have h0 : splitLinesJS ('\n' :: text) = [] :: splitLinesJS text := rfl
  have h1 : splitLinesJS ('d' :: '\n' :: text) = ['d'] :: splitLinesJS text := by
    rw [splitLinesJS_cons_char 'd' _ (by decide) (by decide), h0]
    simp
  have h2 : splitLinesJS ('n' :: 'd' :: '\n' :: text) =
      ('n' :: 'd' :: []) :: splitLinesJS text := by
    rw [splitLinesJS_cons_char 'n' _ (by decide) (by decide), h1]
    simp
  have h3 : splitLinesJS ('e' :: 'n' :: 'd' :: '\n' :: text) =
      ('e' :: 'n' :: 'd' :: []) :: splitLinesJS text := by
    rw [splitLinesJS_cons_char 'e' _ (by decide) (by decide), h2]
    simp
  have hcrlf : containsCRLF (("end\n".toList) ++ text) = containsCRLF text := rfl
  have hne : (splitLinesJS text).isEmpty = false := by
    cases h : splitLinesJS text with
    | nil => exact absurd h (splitLinesJS_ne_nil text)
    | cons a b => rfl
  rw [parseRubySymbolsFromText, parseRubySymbolsFromText, hcrlf]
  rw [show ("end\n".toList) ++ text = 'e' :: 'n' :: 'd' :: '\n' :: text from rfl, h3]
  rw [parseLoop]
  simp only [hne, Bool.false_eq_true, if_false]
  have hstep : ∀ e : Nat, lineStep e ('e' :: 'n' :: 'd' :: [] : Str) 0 [] [] = ([], []) := by
    intro e
    unfold lineStep
    rw [if_pos (by decide)]
  rw [hstep]
  have harith : (0 : Nat) + ('e' :: 'n' :: 'd' :: [] : Str).length +
      (if containsCRLF text then 2 else 1) =
      0 + (3 + (if containsCRLF text then 2 else 1)) := by
    simp
  rw [harith]
  have hmap : ([] : List RubyParsedSymbol) =
      ([] : List RubyParsedSymbol).map (shiftSym (3 + (if containsCRLF text then 2 else 1))) := rfl
  rw [hmap]
  exact parseLoop_shift _ (splitLinesJS text) 0 _ [] []

end RubyNav
